import Mathlib

/-!
# shellcli: a verification development

A shallow embedding of `src/shellcli/shellcli.go` (package `shellcli`) and theorems about
command registration, argument resolution, dispatch, statement sequencing and completion.

Modelling conventions.

* Go strings are Lean `String`s; an `error` is its message; a fallible call returns `Except`
  or an `Option String` holding the error.
* A Go `map[string]V` is an association list with `mapGet` / `mapSet`; iteration order of a Go
  map is unspecified, so the order of a list carries no meaning and maps are observed through
  `mapGet` and membership only. A nil map is `none`.
* The two tokenizers (`splitter.Splitter`, an external library) are fields of the session, as in
  the source, and every general theorem holds for arbitrary tokenizers. A session is taken
  after `Init`, with both tokenizers in place. The concrete `splitModel` follows §4.1 of the
  specification and serves the examples only.
* `strings.ToLower` is `ToLower lower`, where `lower` is the per-character case table
  (`unicode.ToLower`); every general theorem holds for an arbitrary table.
* A Go function value stored in `Command.Run` is a handle `H` into a table of handler bodies
  `code : Handlers T L H`. A handler body receives the struct behind `a *ShellCli[T]`
  (`Session`: registry, tokenizers, flags, caller data, line editor), may change any of it and
  returns an optional error. Every general theorem holds for an arbitrary table.
* `stdout` collects what the package prints with `fmt.Println`, one entry per call, and
  `calls` is a ghost log with one entry (lookup key, argument map) per handler invocation,
  appended at the call site `cmdData.Run(a, argMap)`. Both logs sit beside the struct, out of
  the reach of handlers.
-/

namespace shellcli

/-! ## Go maps -/

/-- Read `m[k]` with the comma-ok idiom: `none` when the key is absent. -/
def mapGet {β : Type} : List (String × β) → String → Option β
  | [], _ => none
  | (k', v) :: rest, k => if k' = k then some v else mapGet rest k

/-- The assignment `m[k] = v`: any entry under `k` is replaced. -/
def mapSet {β : Type} (m : List (String × β)) (k : String) (v : β) : List (String × β) :=
  m.filter (fun e => !decide (e.1 = k)) ++ [(k, v)]

/-- The keys of a map, as `for k := range m` visits them. -/
def mapKeys {β : Type} (m : List (String × β)) : List String :=
  m.map Prod.fst

/-- The type `map[string]string` of resolved arguments. -/
abbrev ArgMap := List (String × String)

/-! ## Standard library functions used by the package -/

/-- The predicate `unicode.IsSpace`. -/
def isSpace (c : Char) : Bool :=
  c = '\t' || c = '\n' || c.toNat = 0x0B || c.toNat = 0x0C || c = '\r' || c = ' ' ||
  c.toNat = 0x85 || c.toNat = 0xA0 || c.toNat = 0x1680 ||
  (0x2000 ≤ c.toNat && c.toNat ≤ 0x200A) || c.toNat = 0x2028 || c.toNat = 0x2029 ||
  c.toNat = 0x202F || c.toNat = 0x205F || c.toNat = 0x3000

/-- The function `strings.TrimSpace`. -/
def TrimSpace (s : String) : String :=
  String.mk (((s.data.dropWhile isSpace).reverse.dropWhile isSpace).reverse)

/-- The function `strings.ToLower`, over the case table `lower`. -/
def ToLower (lower : Char → Char) (s : String) : String :=
  String.mk (s.data.map lower)

/-- The function `strings.HasPrefix s p`. -/
def HasPrefix (s p : String) : Bool :=
  p.data.isPrefixOf s.data

/-- Command is a command for the shell client. `Args` lists (name, description, default);
`Run` is the handle of the handler function. -/
structure Command (H : Type) where
  Description : String
  Args : List (String × String × String)
  Run : H

/-- Line editor handle `*liner.State` (an external library): an abstract state with its
`AppendHistory` method. -/
structure LineState (L : Type) where
  st : L
  AppendHistory : L → String → L

/-- The Go struct `ShellCli[T]`, which a handler receives through `a *ShellCli[T]`. -/
structure Session (T L H : Type) where
  ProjectName : String
  Commands : Option (List (String × Command H))
  Splitter : String → Except String (List String)
  ArgSplitter : String → Except String (List String)
  CaseInsensitive : Bool
  Data : T
  line : Option (LineState L)

/-- ShellCli is a simple shell-like interface with commands: the Go struct together with the
observation logs `stdout` and `calls` described in the header. -/
structure ShellCli (T L H : Type) extends Session T L H where
  stdout : List String
  calls : List (String × ArgMap)

/-- The table of handler bodies: the function `Run func(a *ShellCli[T], args
map[string]string) error` behind each handle. -/
abbrev Handlers (T L H : Type) := H → Session T L H → ArgMap → Session T L H × Option String

/-- The statement `fmt.Println(parts...)`: operands are joined by single spaces. -/
def Println {T L H : Type} (a : ShellCli T L H) (parts : List String) : ShellCli T L H :=
  { a with stdout := a.stdout ++ [String.intercalate " " parts] }

/-- Read `a.Commands[name]`; reading a nil map finds nothing. -/
def ShellCli.lookup {T L H : Type} (a : ShellCli T L H) (name : String) : Option (Command H) :=
  match a.Commands with
  | none => none
  | some m => mapGet m name

/-! ## Operations -/

/-- AddCommand adds a command to the shell client. -/
def AddCommand {T L H : Type} (a : ShellCli T L H) (name : String) (cmd : Command H) :
    ShellCli T L H :=
  let a1 := if a.Commands.isNone then { a with Commands := some [] } else a
  { a1 with Commands := a1.Commands.map (fun m => mapSet m name cmd) }

/-- The line printed by `fmt.Println("WARNING: extra argument: ", fields[0])`. -/
def extraWarning (v : String) : String :=
  String.intercalate " " ["WARNING: extra argument: ", v]

/-- The loop `for i, arg := range args` of `Exec` (lines 118 to 141): `i` is the index of
`arg` in `args`, `m` the argument map so far, `out` the warnings printed so far. The result is
the printed warnings and either the error the loop returns or the finished map. -/
def argLoop (sp : String → Except String (List String))
    (params : List (String × String × String)) :
    Nat → List String → ArgMap → List String → List String × Except String ArgMap
  | _, [], m, out => (out, .ok m)
  | i, arg :: rest, m, out =>
    match sp arg with
    | .error e => (out, .error ("error splitting argument: " ++ e))
    | .ok [v] =>
      match params.get? i with
      | none =>
        argLoop sp params (i + 1) rest m (out ++ [extraWarning v])
      | some p => argLoop sp params (i + 1) rest (mapSet m p.1 v) out
    | .ok [k, v] => argLoop sp params (i + 1) rest (mapSet m k v) out
    | .ok _ => (out, .error ("invalid argument: " ++ arg))

/-- The rest of `Exec` once the command is found under `cmdName` (lines 114 to 149): resolve
the arguments, then invoke the handler and return its outcome. -/
def execFound {T L H : Type} (code : Handlers T L H) (a : ShellCli T L H) (cmdName : String)
    (cmdData : Command H) (args : List String) : ShellCli T L H × Option String :=
  match argLoop a.ArgSplitter cmdData.Args 0 args [] [] with
  | (out, .error e) => ({ a with stdout := a.stdout ++ out }, some e)
  | (out, .ok argMap) =>
    let r := code cmdData.Run a.toSession argMap
    ({ toSession := r.1, stdout := a.stdout ++ out,
       calls := a.calls ++ [(cmdName, argMap)] }, r.2)

/-- The lookup key of `Exec`: the first token, lower-cased when the flag is set. -/
def lookupKey {T L H : Type} (lower : Char → Char) (a : ShellCli T L H) (cmd0 : String) : String :=
  if a.CaseInsensitive then ToLower lower cmd0 else cmd0

/-- Exec executes a command. -/
def Exec {T L H : Type} (code : Handlers T L H) (lower : Char → Char) (a : ShellCli T L H) (cmd : List String) :
    ShellCli T L H × Option String :=
  match cmd with
  | [] => (a, none)
  | cmd0 :: args =>
    let cmdName := lookupKey lower a cmd0
    match a.lookup cmdName with
    | none => (a, some ("unknown command: " ++ cmd0))
    | some cmdData => execFound code a cmdName cmdData args

/-- The statement `if a.line != nil { a.line.AppendHistory(command) }` of `RunString`. -/
def appendHistory {T L H : Type} (a : ShellCli T L H) (command : String) : ShellCli T L H :=
  { a with line := a.line.map (fun l => { l with st := l.AppendHistory l.st command }) }

/-- RunString runs one statement; the boolean asks the caller to leave the shell. -/
def RunString {T L H : Type} (code : Handlers T L H) (lower : Char → Char) (a : ShellCli T L H) (command : String) :
    ShellCli T L H × Bool × Option String :=
  let command := TrimSpace command
  match a.Splitter command with
  | .error e => (a, false, some ("error splitting command: " ++ e))
  | .ok tokens =>
    match tokens with
    | [] => (a, false, none)
    | t0 :: _ =>
      if t0 = "" then (a, false, none)
      else if t0 = "exit" ∨ t0 = "quit" then (a, true, none)
      else
        let r := Exec code lower (appendHistory a command) tokens
        (r.1, false, r.2)

/-- The body of the loop of `ExecuteCommands` for one statement `c`. -/
def execStmt {T L H : Type} (code : Handlers T L H) (lower : Char → Char) (a : ShellCli T L H) (c : String) :
    ShellCli T L H × Bool :=
  if c = "" then (a, false)
  else
    let r := RunString code lower a c
    let a1 := match r.2.2 with
      | some err => Println r.1 ["Error: ", err]
      | none => r.1
    (a1, r.2.1)

/-- The callback that `setCompletionHandler` installs with `SetCompleter`: the candidates for
the in-progress `line`. -/
def setCompletionHandler {T L H : Type} (lower : Char → Char) (a : ShellCli T L H) (line : String) :
    List String :=
  match a.Commands with
  | none => []
  | some m => (mapKeys m).filter (fun name => HasPrefix name (ToLower lower line))

/-! ## A concrete tokenizer and session for the examples -/

/-- Modelled from the spec: the quote characters of §4.1, single and double quote (the
`splitter` library that implements them is external). -/
def isQuote (c : Char) : Bool :=
  c = '"' || c = '\''

/-- Modelled from the spec: the scanner of `splitModel` (§4.1; the `splitter` library is
external). Here `q` is the open quote, `cur` the current piece reversed, `acc` the
finished pieces, newest first. A delimiter outside quotes ends a piece; a quoted span is
literal and its quotes are dropped; a backslash before a quote character yields that
character. -/
def splitScan (delim : Char) :
    List Char → Option Char → List Char → List String → Except String (List String)
  | [], none, cur, acc => .ok (String.mk cur.reverse :: acc).reverse
  | [], some _, _, _ => .error "unterminated quote"
  | [c], q, cur, acc =>
    if q = some c then splitScan delim [] none cur acc
    else if q = none ∧ isQuote c then splitScan delim [] (some c) cur acc
    else if q = none ∧ c = delim then splitScan delim [] none [] (String.mk cur.reverse :: acc)
    else splitScan delim [] q (c :: cur) acc
  | c :: d :: cs, q, cur, acc =>
    if c = '\\' ∧ isQuote d then splitScan delim cs q (d :: cur) acc
    else if q = some c then splitScan delim (d :: cs) none cur acc
    else if q = none ∧ isQuote c then splitScan delim (d :: cs) (some c) cur acc
    else if q = none ∧ c = delim then
      splitScan delim (d :: cs) none [] (String.mk cur.reverse :: acc)
    else splitScan delim (d :: cs) q (c :: cur) acc

/-- Modelled from the spec: drop the first piece when it is empty (§4.1, empty leading and
trailing tokens are dropped). -/
def dropEmptyFirst : List String → List String
  | [] => []
  | p :: ps => if p = "" then ps else p :: ps

/-- Modelled from the spec: the tokenizing primitive `split(line, delimiter, quote-chars)` of
§4.1, which the source takes from the external `splitter` library. The delimiter is a token
boundary outside quotes, quoted spans are literal, empty leading and trailing tokens are
dropped, every token is trimmed and escaped quotes are unescaped; an unterminated quote fails
with an error carrying the input. -/
def splitModel (delim : Char) (s : String) : Except String (List String) :=
  match splitScan delim s.data none [] [] with
  | .error e => .error (e ++ ": " ++ s)
  | .ok ps => .ok (((dropEmptyFirst (dropEmptyFirst ps).reverse).reverse).map TrimSpace)

/-- The ASCII part of the case table `unicode.ToLower`. -/
def asciiLower (c : Char) : Char :=
  if 'A'.toNat ≤ c.toNat ∧ c.toNat ≤ 'Z'.toNat then Char.ofNat (c.toNat + 32) else c

/-- The handles of the handlers used in the examples. -/
inductive DemoH where
  | count
  | fail
  | wipe
  | mute

/-- A handler that counts its invocations in the caller data and succeeds. -/
def countRun (s : Session Nat Unit DemoH) (_ : ArgMap) : Session Nat Unit DemoH × Option String :=
  ({ s with Data := s.Data + 1 }, none)

/-- A handler that reports a failure and changes nothing. -/
def failRun (s : Session Nat Unit DemoH) (_ : ArgMap) : Session Nat Unit DemoH × Option String :=
  (s, some "boom")

/-- A handler that empties the registry (`a.Commands = nil`) and reports a failure. -/
def wipeRun (s : Session Nat Unit DemoH) (_ : ArgMap) : Session Nat Unit DemoH × Option String :=
  ({ s with Commands := none }, some "boom")

/-- A handler that replaces the line tokenizer (`a.Splitter = ...`) by one that rejects every
line, and reports a failure. -/
def muteRun (s : Session Nat Unit DemoH) (_ : ArgMap) : Session Nat Unit DemoH × Option String :=
  ({ s with Splitter := fun _ => Except.error "off" }, some "boom")

/-- The handler bodies behind the handles of `DemoH`. -/
def demoCode : Handlers Nat Unit DemoH
  | .count => countRun
  | .fail => failRun
  | .wipe => wipeRun
  | .mute => muteRun

/-- A command with the parameters `a` and `b`. -/
def cmdAB : Command DemoH :=
  { Description := "demo", Args := [("a", "first", ""), ("b", "second", "")], Run := .count }

/-- A session as `Init` leaves it, with no command registered and no line editor. -/
def emptyCli (ci : Bool) : ShellCli Nat Unit DemoH :=
  { ProjectName := "demo", Commands := none, Splitter := splitModel ' ',
    ArgSplitter := splitModel '=', CaseInsensitive := ci, Data := 0, line := none,
    stdout := [], calls := [] }

/-- The session with `cmd` registered under parameters `a`, `b`. -/
def demoCli (ci : Bool) : ShellCli Nat Unit DemoH :=
  AddCommand (emptyCli ci) "cmd" cmdAB

/-- Put the logs `o` and `k` in front of the logs of `b`. -/
def relog {T L H : Type} (o : List String) (k : List (String × ArgMap)) (b : ShellCli T L H) :
    ShellCli T L H :=
  { toSession := b.toSession, stdout := o ++ b.stdout, calls := k ++ b.calls }

/-- The declared parameter names of a command, in order. -/
def paramNames {H : Type} (d : Command H) : List String :=
  d.Args.map (fun p => p.1)

/-- Assign the pairs to the map in order; a later pair replaces an earlier one on its key. -/
def assignAll (m : ArgMap) (kvs : List (String × String)) : ArgMap :=
  kvs.foldl (fun acc kv => mapSet acc kv.1 kv.2) m

/-- The key that the loop of `Exec` writes for the token `tok` at index `i` of the argument
list, if any: the parameter declared at index `i` for a one-piece token, the first piece for a
two-piece token. -/
def writtenKey (sp : String → Except String (List String))
    (params : List (String × String × String)) (i : Nat) (tok : String) : Option String :=
  match sp tok with
  | .ok [_] => (params.get? i).map (fun p => p.1)
  | .ok [k, _] => some k
  | _ => none

/-- The map `m` sends the j-th of `names` to the j-th of `vals`, each key of `kvs` to its
value, and holds nothing else. -/
def ExactArgMap (names vals : List String) (kvs : List (String × String)) (m : ArgMap) : Prop :=
  (∀ j v, vals.get? j = some v → ∃ n, names.get? j = some n ∧ mapGet m n = some v) ∧
  (∀ kv ∈ kvs, mapGet m kv.1 = some kv.2) ∧
  (∀ k, mapGet m k ≠ none → k ∈ names.take vals.length ∨ k ∈ kvs.map Prod.fst)

/-! ## Go maps: basic facts -/

theorem mapGet_append_of_none {β : Type} (m1 m2 : List (String × β)) (k : String)
    (h : mapGet m1 k = none) : mapGet (m1 ++ m2) k = mapGet m2 k := by
  induction m1 with
  | nil => rfl
  | cons e tl ih =>
    obtain ⟨k1, v1⟩ := e
    by_cases hk : k1 = k
    · simp [mapGet, hk] at h
    · simp only [mapGet, hk, if_false] at h
      simp [mapGet, hk, ih h]

theorem mapGet_append_of_some {β : Type} (m1 m2 : List (String × β)) (k : String) (v : β)
    (h : mapGet m1 k = some v) : mapGet (m1 ++ m2) k = some v := by
  induction m1 with
  | nil => simp [mapGet] at h
  | cons e tl ih =>
    obtain ⟨k1, v1⟩ := e
    by_cases hk : k1 = k
    · simp only [mapGet, hk, if_true] at h
      simp [mapGet, hk, h]
    · simp only [mapGet, hk, if_false] at h
      simp [mapGet, hk, ih h]

theorem mapGet_filter_self {β : Type} (m : List (String × β)) (k : String) :
    mapGet (m.filter (fun e => !decide (e.1 = k))) k = none := by
  induction m with
  | nil => rfl
  | cons e tl ih =>
    obtain ⟨k1, v1⟩ := e
    by_cases hk : k1 = k
    · simp [List.filter, hk, ih]
    · simp [List.filter, hk, mapGet, ih]

theorem mapGet_filter_ne {β : Type} (m : List (String × β)) (k k2 : String) (h : k2 ≠ k) :
    mapGet (m.filter (fun e => !decide (e.1 = k))) k2 = mapGet m k2 := by
  induction m with
  | nil => rfl
  | cons e tl ih =>
    obtain ⟨k1, v1⟩ := e
    by_cases hk : k1 = k
    · subst hk
      have h2 : ¬ k1 = k2 := fun h3 => h h3.symm
      simp [List.filter, mapGet, ih, h2]
    · by_cases hk2 : k1 = k2
      · subst hk2
        simp [List.filter, hk, mapGet]
      · simp [List.filter, hk, mapGet, hk2, ih]

theorem mapGet_mapSet_self {β : Type} (m : List (String × β)) (k : String) (v : β) :
    mapGet (mapSet m k v) k = some v := by
  unfold mapSet
  rw [mapGet_append_of_none _ _ _ (mapGet_filter_self m k)]
  simp [mapGet]

theorem mapGet_mapSet_ne {β : Type} (m : List (String × β)) (k k2 : String) (v : β)
    (h : k2 ≠ k) : mapGet (mapSet m k v) k2 = mapGet m k2 := by
  unfold mapSet
  cases hg : mapGet m k2 with
  | none =>
    rw [mapGet_append_of_none _ _ _ (by rw [mapGet_filter_ne m k k2 h]; exact hg)]
    simp [mapGet, Ne.symm h]
  | some w =>
    exact mapGet_append_of_some _ _ _ _ (by rw [mapGet_filter_ne m k k2 h]; exact hg)

theorem mem_mapKeys_iff {β : Type} (m : List (String × β)) (k : String) :
    k ∈ mapKeys m ↔ mapGet m k ≠ none := by
  induction m with
  | nil => simp [mapKeys, mapGet]
  | cons e tl ih =>
    obtain ⟨k1, v1⟩ := e
    by_cases hk : k1 = k
    · simp [mapKeys, mapGet, hk]
    · have hk2 : ¬ k = k1 := fun h => hk h.symm
      simp only [mapKeys, List.map_cons, List.mem_cons, hk2, false_or, mapGet, hk, if_false]
      exact ih

/-! ## Assigning a list of pairs -/

theorem assignAll_cons (m : ArgMap) (kv : String × String) (kvs : List (String × String)) :
    assignAll m (kv :: kvs) = assignAll (mapSet m kv.1 kv.2) kvs := rfl

theorem assignAll_append (m : ArgMap) (l1 l2 : List (String × String)) :
    assignAll m (l1 ++ l2) = assignAll (assignAll m l1) l2 := by
  simp [assignAll, List.foldl_append]

theorem mapGet_assignAll_of_not_mem (kvs : List (String × String)) (m : ArgMap) (k : String)
    (h : k ∉ kvs.map Prod.fst) : mapGet (assignAll m kvs) k = mapGet m k := by
  induction kvs generalizing m with
  | nil => rfl
  | cons kv tl ih =>
    simp only [List.map_cons, List.mem_cons, not_or] at h
    rw [assignAll_cons, ih _ h.2, mapGet_mapSet_ne _ _ _ _ h.1]

theorem mapGet_assignAll_of_mem (kvs : List (String × String)) (m : ArgMap)
    (hnd : (kvs.map Prod.fst).Nodup) (kv : String × String) (h : kv ∈ kvs) :
    mapGet (assignAll m kvs) kv.1 = some kv.2 := by
  induction kvs generalizing m with
  | nil => simp at h
  | cons e tl ih =>
    simp only [List.map_cons, List.nodup_cons] at hnd
    rw [assignAll_cons]
    rcases List.mem_cons.mp h with h1 | h1
    · subst h1
      rw [mapGet_assignAll_of_not_mem _ _ _ hnd.1, mapGet_mapSet_self]
    · exact ih _ hnd.2 h1

theorem mapGet_assignAll_ne_none (kvs : List (String × String)) (m : ArgMap) (k : String)
    (h : mapGet (assignAll m kvs) k ≠ none) : mapGet m k ≠ none ∨ k ∈ kvs.map Prod.fst := by
  by_cases hk : k ∈ kvs.map Prod.fst
  · exact Or.inr hk
  · rw [mapGet_assignAll_of_not_mem _ _ _ hk] at h
    exact Or.inl h

/-! ## The argument loop -/

theorem argLoop_nil (sp : String → Except String (List String))
    (params : List (String × String × String)) (i : Nat) (m : ArgMap) (out : List String) :
    argLoop sp params i [] m out = (out, .ok m) := rfl

/-- A run of positional tokens that all find a parameter. -/
theorem argLoop_positional (sp : String → Except String (List String))
    (params : List (String × String × String)) (toks vals : List String) (i : Nat)
    (rest : List String) (m : ArgMap) (out : List String)
    (hsp : toks.map sp = vals.map (fun v => Except.ok [v]))
    (hlen : i + toks.length ≤ params.length) :
    argLoop sp params i (toks ++ rest) m out =
      argLoop sp params (i + toks.length) rest
        (assignAll m (List.zip ((params.map (fun p => p.1)).drop i) vals)) out := by
  induction toks generalizing vals i m with
  | nil =>
    cases vals with
    | nil => simp [assignAll]
    | cons v vs => simp at hsp
  | cons t ts ih =>
    cases vals with
    | nil => simp at hsp
    | cons v vs =>
      simp only [List.map_cons, List.cons.injEq] at hsp
      simp only [List.length_cons] at hlen
      have hi : i < params.length := by omega
      have hget : params.get? i = some (params.get ⟨i, hi⟩) := List.get?_eq_get hi
      have hdrop : (params.map (fun p => p.1)).drop i =
          (params.get ⟨i, hi⟩).1 :: (params.map (fun p => p.1)).drop (i + 1) := by
        rw [List.drop_eq_getElem_cons (by simpa using hi)]
        simp
      rw [List.cons_append, argLoop, hsp.1]
      simp only [hget]
      rw [ih vs (i + 1) _ hsp.2 (by omega), hdrop, List.zip_cons_cons, assignAll_cons]
      simp only [List.length_cons]
      rw [show i + 1 + ts.length = i + (ts.length + 1) by omega]

/-- A run of explicit `key=value` tokens. -/
theorem argLoop_explicit (sp : String → Except String (List String))
    (params : List (String × String × String)) (toks : List String)
    (kvs : List (String × String)) (i : Nat) (rest : List String) (m : ArgMap)
    (out : List String)
    (hsp : toks.map sp = kvs.map (fun kv => Except.ok [kv.1, kv.2])) :
    argLoop sp params i (toks ++ rest) m out =
      argLoop sp params (i + toks.length) rest (assignAll m kvs) out := by
  induction toks generalizing kvs i m with
  | nil =>
    cases kvs with
    | nil => simp [assignAll]
    | cons v vs => simp at hsp
  | cons t ts ih =>
    cases kvs with
    | nil => simp at hsp
    | cons kv vs =>
      simp only [List.map_cons, List.cons.injEq] at hsp
      rw [List.cons_append, argLoop, hsp.1]
      simp only []
      rw [ih vs (i + 1) _ hsp.2, assignAll_cons]
      simp only [List.length_cons]
      rw [show i + 1 + ts.length = i + (ts.length + 1) by omega]

/-- A run of positional tokens past the last declared parameter. -/
theorem argLoop_extra (sp : String → Except String (List String))
    (params : List (String × String × String)) (toks vals : List String) (i : Nat)
    (rest : List String) (m : ArgMap) (out : List String)
    (hsp : toks.map sp = vals.map (fun v => Except.ok [v]))
    (hlen : params.length ≤ i) :
    argLoop sp params i (toks ++ rest) m out =
      argLoop sp params (i + toks.length) rest m (out ++ vals.map extraWarning) := by
  induction toks generalizing vals i out with
  | nil =>
    cases vals with
    | nil => simp
    | cons v vs => simp at hsp
  | cons t ts ih =>
    cases vals with
    | nil => simp at hsp
    | cons v vs =>
      simp only [List.map_cons, List.cons.injEq] at hsp
      have hget : params.get? i = none := List.get?_eq_none.mpr hlen
      rw [List.cons_append, argLoop, hsp.1]
      simp only [hget]
      rw [ih vs (i + 1) _ hsp.2 (by omega)]
      simp only [List.length_cons, List.map_cons, List.append_assoc, List.singleton_append]
      rw [show i + 1 + ts.length = i + (ts.length + 1) by omega]

theorem map_fst_zip_take (l1 : List String) (l2 : List String) :
    (List.zip l1 l2).map Prod.fst = l1.take l2.length := by
  induction l1 generalizing l2 with
  | nil => simp
  | cons x xs ih =>
    cases l2 with
    | nil => simp
    | cons y ys => simp [ih]

theorem mem_zip_of_get? (l1 l2 : List String) (j : Nat) (n v : String)
    (h1 : l1.get? j = some n) (h2 : l2.get? j = some v) : (n, v) ∈ List.zip l1 l2 := by
  induction l1 generalizing l2 j with
  | nil => simp at h1
  | cons x xs ih =>
    cases l2 with
    | nil => simp at h2
    | cons y ys =>
      cases j with
      | zero =>
        simp only [List.get?_cons_zero, Option.some.injEq] at h1 h2
        simp [h1, h2]
      | succ j =>
        simp only [List.get?_cons_succ] at h1 h2
        simp only [List.zip_cons_cons, List.mem_cons]
        exact Or.inr (ih ys j h1 h2)

/-- Every token of `pre` splits into one or two pieces: the loop runs past `pre`. -/
theorem argLoop_passes (sp : String → Except String (List String))
    (params : List (String × String × String)) (pre : List String)
    (hpre : ∀ t ∈ pre, ∃ l, sp t = Except.ok l ∧ (l.length = 1 ∨ l.length = 2))
    (i : Nat) (m : ArgMap) (out : List String) :
    ∃ m1 out1, ∀ rest, argLoop sp params i (pre ++ rest) m out =
      argLoop sp params (i + pre.length) rest m1 out1 := by
  induction pre generalizing i m out with
  | nil => exact ⟨m, out, fun rest => by simp⟩
  | cons t ts ih =>
    obtain ⟨l, hl, hlen⟩ := hpre t (List.mem_cons_self _ _)
    have hts : ∀ t ∈ ts, ∃ l, sp t = Except.ok l ∧ (l.length = 1 ∨ l.length = 2) :=
      fun t ht => hpre t (List.mem_cons_of_mem _ ht)
    have harith : i + 1 + ts.length = i + (t :: ts).length := by
      simp only [List.length_cons]; omega
    rcases hlen with h1 | h2
    · obtain ⟨v, rfl⟩ := List.length_eq_one.mp h1
      cases hget : params.get? i with
      | none =>
        obtain ⟨m1, out1, h⟩ := ih hts (i + 1) m (out ++ [extraWarning v])
        refine ⟨m1, out1, fun rest => ?_⟩
        rw [List.cons_append, argLoop, hl]
        simp only [hget]
        rw [h rest, harith]
      | some p =>
        obtain ⟨m1, out1, h⟩ := ih hts (i + 1) (mapSet m p.1 v) out
        refine ⟨m1, out1, fun rest => ?_⟩
        rw [List.cons_append, argLoop, hl]
        simp only [hget]
        rw [h rest, harith]
    · obtain ⟨k, v, rfl⟩ := List.length_eq_two.mp h2
      obtain ⟨m1, out1, h⟩ := ih hts (i + 1) (mapSet m k v) out
      refine ⟨m1, out1, fun rest => ?_⟩
      rw [List.cons_append, argLoop, hl]
      simp only []
      rw [h rest, harith]

/-- A token that splits into neither one nor two pieces ends the loop with an error. -/
theorem argLoop_invalid (sp : String → Except String (List String))
    (params : List (String × String × String)) (tok : String) (l : List String)
    (hl : sp tok = Except.ok l) (h1 : l.length ≠ 1) (h2 : l.length ≠ 2)
    (i : Nat) (rest : List String) (m : ArgMap) (out : List String) :
    argLoop sp params i (tok :: rest) m out =
      (out, Except.error ("invalid argument: " ++ tok)) := by
  rw [argLoop, hl]
  rcases l with _ | ⟨x, _ | ⟨y, _ | ⟨z, zs⟩⟩⟩
  · rfl
  · simp at h1
  · simp at h2
  · rfl

/-! ## Dispatch -/

theorem Exec_found {T L H : Type} (code : Handlers T L H) (lower : Char → Char) (a : ShellCli T L H) (cmd0 : String)
    (args : List String) (d : Command H) (hd : a.lookup (lookupKey lower a cmd0) = some d) :
    Exec code lower a (cmd0 :: args) = execFound code a (lookupKey lower a cmd0) d args := by
  simp only [Exec, hd]

theorem execFound_ok {T L H : Type} (code : Handlers T L H) (a : ShellCli T L H)
    (key : String) (d : Command H) (args : List String) (out : List String) (m : ArgMap)
    (h : argLoop a.ArgSplitter d.Args 0 args [] [] = (out, Except.ok m)) :
    execFound code a key d args =
      ({ toSession := (code d.Run a.toSession m).1, stdout := a.stdout ++ out,
         calls := a.calls ++ [(key, m)] }, (code d.Run a.toSession m).2) := by
  simp only [execFound, h]

theorem execFound_error {T L H : Type} (code : Handlers T L H) (a : ShellCli T L H)
    (key : String) (d : Command H) (args : List String) (out : List String) (e : String)
    (h : argLoop a.ArgSplitter d.Args 0 args [] [] = (out, Except.error e)) :
    execFound code a key d args = ({ a with stdout := a.stdout ++ out }, some e) := by
  simp only [execFound, h]

/-! ## Argument resolution -/

/-- C1 (amended): for a registered command with distinct parameter names and an argument list
whose positional tokens come first and number at most the declared parameter count, and whose
explicit keys are pairwise distinct and differ from the parameters filled positionally, `Exec`
invokes the handler with exactly the map sending the j-th parameter to the piece of the j-th
positional token and each explicit key to its value, prints nothing, and returns the
handler's outcome. -/
theorem Exec_resolves_arguments {T L H : Type} (code : Handlers T L H)
    (lower : Char → Char) (a : ShellCli T L H)
    (cmd0 : String) (d : Command H) (pos expl vals : List String)
    (kvs : List (String × String))
    (hd : a.lookup (lookupKey lower a cmd0) = some d)
    (hnames : (paramNames d).Nodup)
    (hpos : pos.map a.ArgSplitter = vals.map (fun v => Except.ok [v]))
    (hexpl : expl.map a.ArgSplitter = kvs.map (fun kv => Except.ok [kv.1, kv.2]))
    (hlen : pos.length ≤ d.Args.length)
    (hkeys : (kvs.map Prod.fst).Nodup)
    (hdisj : ∀ k ∈ kvs.map Prod.fst, k ∉ (paramNames d).take pos.length) :
    ExactArgMap (paramNames d) vals kvs (assignAll [] (List.zip (paramNames d) vals ++ kvs)) ∧
    Exec code lower a (cmd0 :: (pos ++ expl)) =
      ({ toSession :=
            (code d.Run a.toSession (assignAll [] (List.zip (paramNames d) vals ++ kvs))).1,
          stdout := a.stdout,
          calls := a.calls ++
            [(lookupKey lower a cmd0, assignAll [] (List.zip (paramNames d) vals ++ kvs))] },
        (code d.Run a.toSession (assignAll [] (List.zip (paramNames d) vals ++ kvs))).2) := by
  have hvl : vals.length = pos.length := by
    have := congrArg List.length hpos
    simpa using this.symm
  have hfst : (List.zip (paramNames d) vals ++ kvs).map Prod.fst =
      (paramNames d).take pos.length ++ kvs.map Prod.fst := by
    rw [List.map_append, map_fst_zip_take, hvl]
  have hnd : ((List.zip (paramNames d) vals ++ kvs).map Prod.fst).Nodup := by
    rw [hfst]
    refine List.Nodup.append (hnames.sublist (List.take_sublist _ _)) hkeys ?_
    intro k hk1 hk2
    exact hdisj k hk2 hk1
  refine ⟨⟨?_, ?_, ?_⟩, ?_⟩
  · intro j v hv
    have hj : j < vals.length := by
      rcases Nat.lt_or_ge j vals.length with h | h
      · exact h
      · rw [List.get?_eq_none.mpr h] at hv; cases hv
    have hjn : j < (paramNames d).length := by
      simp only [paramNames, List.length_map]; omega
    refine ⟨(paramNames d).get ⟨j, hjn⟩, List.get?_eq_get hjn, ?_⟩
    exact mapGet_assignAll_of_mem _ [] hnd ((paramNames d).get ⟨j, hjn⟩, v)
      (List.mem_append_left _ (mem_zip_of_get? _ _ j _ _ (List.get?_eq_get hjn) hv))
  · intro kv hkv
    exact mapGet_assignAll_of_mem _ [] hnd kv (List.mem_append_right _ hkv)
  · intro k hk
    rcases mapGet_assignAll_ne_none _ [] k hk with h | h
    · exact absurd rfl h
    · rw [hfst, hvl.symm] at h
      exact List.mem_append.mp h
  · have hloop : argLoop a.ArgSplitter d.Args 0 (pos ++ expl) [] [] =
        ([], Except.ok (assignAll [] (List.zip (paramNames d) vals ++ kvs))) := by
      rw [argLoop_positional a.ArgSplitter d.Args pos vals 0 expl [] [] hpos (by omega)]
      have h2 := argLoop_explicit a.ArgSplitter d.Args expl kvs (0 + pos.length) []
        (assignAll [] (List.zip ((d.Args.map (fun p => p.1)).drop 0) vals)) [] hexpl
      rw [List.append_nil] at h2
      rw [h2, argLoop_nil, assignAll_append]
      rfl
    rw [Exec_found code lower a cmd0 _ d hd, execFound_ok code a _ d _ _ _ hloop]
    simp

/-- C1, witness: for the parameters `a`, `b` the lines `cmd 1 2`, `cmd a=5 b=6` and
`cmd 1 b=6` reach the handler with `a:1 b:2`, `a:5 b:6` and `a:1 b:6`. -/
theorem Exec_resolves_arguments_witness :
    ((Exec demoCode asciiLower (demoCli false) ("cmd" :: (["1", "2"] ++ []))).1.calls =
        [("cmd", [("a", "1"), ("b", "2")])] ∧
      ExactArgMap ["a", "b"] ["1", "2"] [] [("a", "1"), ("b", "2")]) ∧
    ((Exec demoCode asciiLower (demoCli false) ("cmd" :: ([] ++ ["a=5", "b=6"]))).1.calls =
        [("cmd", [("a", "5"), ("b", "6")])] ∧
      ExactArgMap ["a", "b"] [] [("a", "5"), ("b", "6")] [("a", "5"), ("b", "6")]) ∧
    ((Exec demoCode asciiLower (demoCli false) ("cmd" :: (["1"] ++ ["b=6"]))).1.calls =
        [("cmd", [("a", "1"), ("b", "6")])] ∧
      ExactArgMap ["a", "b"] ["1"] [("b", "6")] [("a", "1"), ("b", "6")]) := by
  have h1 := Exec_resolves_arguments demoCode asciiLower (demoCli false) "cmd" cmdAB ["1", "2"] []
    ["1", "2"] [] rfl (by decide) rfl rfl (by decide) (by decide) (by decide)
  have h2 := Exec_resolves_arguments demoCode asciiLower (demoCli false) "cmd" cmdAB [] ["a=5", "b=6"]
    [] [("a", "5"), ("b", "6")] rfl (by decide) rfl rfl (by decide) (by decide) (by decide)
  have h3 := Exec_resolves_arguments demoCode asciiLower (demoCli false) "cmd" cmdAB ["1"] ["b=6"]
    ["1"] [("b", "6")] rfl (by decide) rfl rfl (by decide) (by decide) (by decide)
  exact ⟨⟨by rw [h1.2]; rfl, h1.1⟩, ⟨by rw [h2.2]; rfl, h2.1⟩, ⟨by rw [h3.2]; rfl, h3.1⟩⟩

/-- C1, counterexample: with parameters `a`, `b` the arguments `1 a=5` satisfy the stated
conditions (distinct names, one positional token first), yet the handler's map sends `a` to
`5`, not to the positional token `1`. -/
theorem Exec_resolves_arguments_counterexample :
    (paramNames cmdAB).Nodup ∧
    ["1"].map (demoCli false).ArgSplitter = ["1"].map (fun v => Except.ok [v]) ∧
    ["a=5"].map (demoCli false).ArgSplitter =
      [("a", "5")].map (fun kv => Except.ok [kv.1, kv.2]) ∧
    ¬ ∃ m, (Exec demoCode asciiLower (demoCli false) ["cmd", "1", "a=5"]).1.calls = [("cmd", m)] ∧
      ExactArgMap (paramNames cmdAB) ["1"] [("a", "5")] m := by
  refine ⟨by decide, rfl, rfl, ?_⟩
  rintro ⟨m, hm, hex, -⟩
  have hc : (Exec demoCode asciiLower (demoCli false) ["cmd", "1", "a=5"]).1.calls =
      [("cmd", [("a", "5")])] := by decide
  rw [hc] at hm
  simp only [List.cons.injEq, Prod.mk.injEq, true_and, and_true] at hm
  subst hm
  obtain ⟨n, hn, hg⟩ := hex 0 "1" rfl
  have hn2 : n = "a" := by
    have : (paramNames cmdAB).get? 0 = some "a" := rfl
    rw [this] at hn
    exact (Option.some.inj hn).symm
  subst hn2
  revert hg
  decide

/-- One completed iteration of the loop, read backwards. -/
theorem argLoop_cons_ok (sp : String → Except String (List String))
    (params : List (String × String × String)) (i : Nat) (t : String) (rest : List String)
    (m : ArgMap) (out out2 : List String) (m2 : ArgMap)
    (h : argLoop sp params i (t :: rest) m out = (out2, Except.ok m2)) :
    ∃ m1 out1, argLoop sp params (i + 1) rest m1 out1 = (out2, Except.ok m2) ∧
      ((∃ v p, sp t = Except.ok [v] ∧ params.get? i = some p ∧ m1 = mapSet m p.1 v) ∨
       (∃ v, sp t = Except.ok [v] ∧ params.get? i = none ∧ m1 = m) ∨
       (∃ k v, sp t = Except.ok [k, v] ∧ m1 = mapSet m k v)) := by
  rw [argLoop] at h
  cases hsp : sp t with
  | error e =>
    rw [hsp] at h
    simp at h
  | ok l =>
    rw [hsp] at h
    rcases l with _ | ⟨x, _ | ⟨y, _ | ⟨z, zs⟩⟩⟩
    · simp at h
    · cases hget : params.get? i with
      | none =>
        simp only [hget] at h
        exact ⟨_, _, h, Or.inr (Or.inl ⟨x, rfl, rfl, rfl⟩)⟩
      | some p =>
        simp only [hget] at h
        exact ⟨_, _, h, Or.inl ⟨x, p, rfl, rfl, rfl⟩⟩
    · simp only [] at h
      exact ⟨_, _, h, Or.inr (Or.inr ⟨x, y, rfl, rfl⟩)⟩
    · simp at h

theorem writtenKey_positional (sp : String → Except String (List String))
    (params : List (String × String × String)) (i : Nat) (t v : String)
    (p : String × String × String) (hsp : sp t = Except.ok [v])
    (hget : params.get? i = some p) : writtenKey sp params i t = some p.1 := by
  unfold writtenKey
  rw [hsp]
  simp only [hget, Option.map_some']

theorem writtenKey_explicit (sp : String → Except String (List String))
    (params : List (String × String × String)) (i : Nat) (t k v : String)
    (hsp : sp t = Except.ok [k, v]) : writtenKey sp params i t = some k := by
  unfold writtenKey
  rw [hsp]

/-- A key that no token of the list writes keeps its entry through the loop. -/
theorem argLoop_mapGet_unchanged (sp : String → Except String (List String))
    (params : List (String × String × String)) (key : String) (args : List String) (i : Nat)
    (m : ArgMap) (out out2 : List String) (m2 : ArgMap)
    (h : argLoop sp params i args m out = (out2, Except.ok m2))
    (hw : ∀ j t, args.get? j = some t → writtenKey sp params (i + j) t ≠ some key) :
    mapGet m2 key = mapGet m key := by
  induction args generalizing i m out with
  | nil =>
    rw [argLoop_nil] at h
    simp only [Prod.mk.injEq, Except.ok.injEq] at h
    rw [h.2]
  | cons t ts ih =>
    obtain ⟨m1, out1, hrest, hcase⟩ := argLoop_cons_ok sp params i t ts m out out2 m2 h
    have h0 := hw 0 t rfl
    have hts : ∀ j t2, ts.get? j = some t2 → writtenKey sp params (i + 1 + j) t2 ≠ some key := by
      intro j t2 hj
      have := hw (j + 1) t2 (by simpa using hj)
      rwa [show i + (j + 1) = i + 1 + j by omega] at this
    rw [ih (i + 1) m1 out1 hrest hts]
    rcases hcase with ⟨v, p, hsp, hget, rfl⟩ | ⟨v, _, _, rfl⟩ | ⟨k, v, hsp, rfl⟩
    · have hne : key ≠ p.1 := by
        intro hk
        apply h0
        rw [Nat.add_zero, writtenKey_positional sp params i t v p hsp hget, hk]
      exact mapGet_mapSet_ne _ _ _ _ hne
    · rfl
    · have hne : key ≠ k := by
        intro hk
        apply h0
        rw [writtenKey_explicit sp params _ t k v hsp, hk]
      exact mapGet_mapSet_ne _ _ _ _ hne

/-- The one-piece token at index `idx` is stored under the parameter declared at the same
index, and stays there when no later token writes that key. -/
theorem argLoop_stores_at_index (sp : String → Except String (List String))
    (params : List (String × String × String)) (args : List String) (i idx : Nat)
    (m : ArgMap) (out out2 : List String) (m2 : ArgMap) (tok v : String)
    (p : String × String × String)
    (h : argLoop sp params i args m out = (out2, Except.ok m2))
    (htok : args.get? idx = some tok) (hv : sp tok = Except.ok [v])
    (hp : params.get? (i + idx) = some p)
    (hw : ∀ j t, idx < j → args.get? j = some t → writtenKey sp params (i + j) t ≠ some p.1) :
    mapGet m2 p.1 = some v := by
  induction args generalizing i idx m out with
  | nil => simp at htok
  | cons t ts ih =>
    obtain ⟨m1, out1, hrest, hcase⟩ := argLoop_cons_ok sp params i t ts m out out2 m2 h
    cases idx with
    | zero =>
      simp only [List.get?_cons_zero, Option.some.injEq] at htok
      subst htok
      have hts : ∀ j t2, ts.get? j = some t2 →
          writtenKey sp params (i + 1 + j) t2 ≠ some p.1 := by
        intro j t2 hj
        have := hw (j + 1) t2 (by omega) (by simpa using hj)
        rwa [show i + (j + 1) = i + 1 + j by omega] at this
      rw [argLoop_mapGet_unchanged sp params p.1 ts (i + 1) m1 out1 out2 m2 hrest hts]
      rcases hcase with ⟨v2, p2, hsp, hget, rfl⟩ | ⟨v2, _, hget, _⟩ | ⟨k, v2, hsp, _⟩
      · rw [hv] at hsp
        simp only [Except.ok.injEq, List.cons.injEq, and_true] at hsp
        rw [Nat.add_zero, hget] at hp
        simp only [Option.some.injEq] at hp
        subst hp; subst hsp
        exact mapGet_mapSet_self _ _ _
      · rw [Nat.add_zero, hget] at hp
        cases hp
      · rw [hv] at hsp
        simp at hsp
    | succ idx =>
      simp only [List.get?_cons_succ] at htok
      refine ih (i + 1) idx m1 out1 hrest htok
        (by rwa [show i + 1 + idx = i + (idx + 1) by omega]) ?_
      intro j t2 hj hget
      have := hw (j + 1) t2 (by omega) (by simpa using hget)
      rwa [show i + (j + 1) = i + 1 + j by omega] at this

/-- C2 (amended): a positional token is assigned by its index among all argument tokens,
`key=value` tokens included. When every argument token splits into one or two pieces, the
handler is invoked with a map in which the one-piece token at index `idx` (below the declared
parameter count) sits under the parameter declared at index `idx`, provided no later token
writes that key. -/
theorem Exec_positional_by_index {T L H : Type} (code : Handlers T L H)
    (lower : Char → Char) (a : ShellCli T L H)
    (cmd0 : String) (d : Command H) (args : List String) (idx : Nat) (tok v : String)
    (p : String × String × String)
    (hd : a.lookup (lookupKey lower a cmd0) = some d)
    (hall : ∀ t ∈ args, ∃ l, a.ArgSplitter t = Except.ok l ∧ (l.length = 1 ∨ l.length = 2))
    (htok : args.get? idx = some tok) (hv : a.ArgSplitter tok = Except.ok [v])
    (hp : d.Args.get? idx = some p)
    (hw : ∀ j t, idx < j → args.get? j = some t →
      writtenKey a.ArgSplitter d.Args j t ≠ some p.1) :
    ∃ m, (Exec code lower a (cmd0 :: args)).1.calls = a.calls ++ [(lookupKey lower a cmd0, m)] ∧
      (Exec code lower a (cmd0 :: args)).2 = (code d.Run a.toSession m).2 ∧
      mapGet m p.1 = some v := by
  obtain ⟨m1, out1, hrun⟩ := argLoop_passes a.ArgSplitter d.Args args hall 0 [] []
  have hloop : argLoop a.ArgSplitter d.Args 0 args [] [] = (out1, Except.ok m1) := by
    have := hrun []
    rw [List.append_nil, argLoop_nil] at this
    exact this
  refine ⟨m1, ?_, ?_, ?_⟩
  · rw [Exec_found code lower a cmd0 _ d hd, execFound_ok code a _ d _ _ _ hloop]
  · rw [Exec_found code lower a cmd0 _ d hd, execFound_ok code a _ d _ _ _ hloop]
  · refine argLoop_stores_at_index a.ArgSplitter d.Args args 0 idx [] [] out1 m1 tok v p hloop
      htok hv (by rwa [Nat.zero_add]) ?_
    intro j t hj hget
    rw [Nat.zero_add]
    exact hw j t hj hget

/-- C2, witness: for the parameters `a`, `b` the arguments `x=1 2` store `2` under `b`, the
parameter at the token's index 1. -/
theorem Exec_positional_by_index_witness :
    ∃ m, (Exec demoCode asciiLower (demoCli false) ["cmd", "x=1", "2"]).1.calls =
        (demoCli false).calls ++ [(lookupKey asciiLower (demoCli false) "cmd", m)] ∧
      (Exec demoCode asciiLower (demoCli false) ["cmd", "x=1", "2"]).2 =
        (demoCode cmdAB.Run (demoCli false).toSession m).2 ∧
      mapGet m "b" = some "2" :=
  Exec_positional_by_index demoCode asciiLower (demoCli false) "cmd" cmdAB ["x=1", "2"] 1 "2" "2"
    ("b", "second", "") rfl
    (by
      intro t ht
      simp only [List.mem_cons, List.mem_singleton, List.not_mem_nil, or_false] at ht
      rcases ht with rfl | rfl
      · exact ⟨["x", "1"], rfl, Or.inr rfl⟩
      · exact ⟨["2"], rfl, Or.inl rfl⟩)
    rfl rfl rfl
    (by
      intro j t hj hget
      have hnone : ["x=1", "2"].get? j = none := List.get?_eq_none.mpr (by simpa using hj)
      rw [hnone] at hget
      cases hget)

/-- C2, counterexample: for the parameters `a`, `b` and the arguments `x=1 2`, the token `2`
is the first positional token (`x=1` splits in two, `2` stays one piece), yet the handler's
map holds nothing under `a`: the value went to `b`. -/
theorem Exec_positional_by_index_counterexample :
    (demoCli false).ArgSplitter "x=1" = Except.ok ["x", "1"] ∧
    (demoCli false).ArgSplitter "2" = Except.ok ["2"] ∧
    (Exec demoCode asciiLower (demoCli false) ["cmd", "x=1", "2"]).1.calls =
      [("cmd", [("x", "1"), ("b", "2")])] ∧
    ¬ ∃ m, (Exec demoCode asciiLower (demoCli false) ["cmd", "x=1", "2"]).1.calls = [("cmd", m)] ∧
      mapGet m "a" = some "2" := by
  have hc : (Exec demoCode asciiLower (demoCli false) ["cmd", "x=1", "2"]).1.calls =
      [("cmd", [("x", "1"), ("b", "2")])] := by decide
  refine ⟨rfl, rfl, hc, ?_⟩
  rintro ⟨m, hm, hg⟩
  rw [hc] at hm
  simp only [List.cons.injEq, Prod.mk.injEq, true_and, and_true] at hm
  subst hm
  revert hg
  decide


/-- C7: when the command is registered, every token before `tok` splits into one or two pieces
and `tok` splits into some other number of pieces, `Exec` returns the invalid-argument error
naming `tok`; no handler is invoked (the call log and the caller data are as before) and only
warnings for earlier extra tokens may have been printed. -/
theorem Exec_invalid_argument {T L H : Type} (code : Handlers T L H)
    (lower : Char → Char) (a : ShellCli T L H)
    (cmd0 : String) (d : Command H) (pre : List String) (tok : String) (rest l : List String)
    (hd : a.lookup (lookupKey lower a cmd0) = some d)
    (hpre : ∀ t ∈ pre, ∃ l, a.ArgSplitter t = Except.ok l ∧ (l.length = 1 ∨ l.length = 2))
    (hl : a.ArgSplitter tok = Except.ok l) (h1 : l.length ≠ 1) (h2 : l.length ≠ 2) :
    (Exec code lower a (cmd0 :: (pre ++ tok :: rest))).2 = some ("invalid argument: " ++ tok) ∧
    (Exec code lower a (cmd0 :: (pre ++ tok :: rest))).1.calls = a.calls ∧
    (Exec code lower a (cmd0 :: (pre ++ tok :: rest))).1.Data = a.Data ∧
    ∃ out, (Exec code lower a (cmd0 :: (pre ++ tok :: rest))).1 =
      { a with stdout := a.stdout ++ out } := by
  obtain ⟨m1, out1, hrun⟩ := argLoop_passes a.ArgSplitter d.Args pre hpre 0 [] []
  have hloop : argLoop a.ArgSplitter d.Args 0 (pre ++ tok :: rest) [] [] =
      (out1, Except.error ("invalid argument: " ++ tok)) := by
    rw [hrun (tok :: rest)]
    exact argLoop_invalid a.ArgSplitter d.Args tok l hl h1 h2 _ rest m1 out1
  rw [Exec_found code lower a cmd0 _ d hd, execFound_error code a _ d _ _ _ hloop]
  exact ⟨rfl, rfl, rfl, out1, rfl⟩

/-- C7, witness: `cmd x=y=z` fails with an error naming `x=y=z` and calls no handler. -/
theorem Exec_invalid_argument_witness :
    (demoCli false).ArgSplitter "x=y=z" = Except.ok ["x", "y", "z"] ∧
    (Exec demoCode asciiLower (demoCli false) ("cmd" :: ([] ++ "x=y=z" :: []))).2 =
      some ("invalid argument: " ++ "x=y=z") ∧
    (Exec demoCode asciiLower (demoCli false) ("cmd" :: ([] ++ "x=y=z" :: []))).1.calls =
      (demoCli false).calls :=
  have h := Exec_invalid_argument demoCode asciiLower (demoCli false) "cmd" cmdAB [] "x=y=z" []
    ["x", "y", "z"] rfl (by intro t ht; cases ht) rfl (by decide) (by decide)
  ⟨rfl, h.1, h.2.1⟩

/-- C8: for a registered command with `n` declared parameters and more than `n` argument
tokens, all positional, `Exec` assigns the first `n` pieces to the parameters in order, prints
one warning for each remaining piece without touching the map, invokes the handler with that
map and returns the handler's outcome. Every key of the map is a declared parameter name, and
with distinct names the j-th parameter holds the j-th piece. -/
theorem Exec_extra_positional {T L H : Type} (code : Handlers T L H)
    (lower : Char → Char) (a : ShellCli T L H)
    (cmd0 : String) (d : Command H) (toks vals : List String)
    (hd : a.lookup (lookupKey lower a cmd0) = some d)
    (hsp : toks.map a.ArgSplitter = vals.map (fun v => Except.ok [v]))
    (hmore : d.Args.length < toks.length) :
    Exec code lower a (cmd0 :: toks) =
      ({ toSession := (code d.Run a.toSession
            (assignAll [] (List.zip (paramNames d) (vals.take d.Args.length)))).1,
          stdout := a.stdout ++ (vals.drop d.Args.length).map extraWarning,
          calls := a.calls ++ [(lookupKey lower a cmd0,
            assignAll [] (List.zip (paramNames d) (vals.take d.Args.length)))] },
        (code d.Run a.toSession
          (assignAll [] (List.zip (paramNames d) (vals.take d.Args.length)))).2) ∧
    (∀ k, mapGet (assignAll [] (List.zip (paramNames d) (vals.take d.Args.length))) k ≠ none →
      k ∈ paramNames d) ∧
    ((paramNames d).Nodup → ∀ j n v, (paramNames d).get? j = some n → vals.get? j = some v →
      mapGet (assignAll [] (List.zip (paramNames d) (vals.take d.Args.length))) n = some v) := by
  have hvl : vals.length = toks.length := by
    have := congrArg List.length hsp
    simpa using this.symm
  have hnl : (paramNames d).length = d.Args.length := by simp [paramNames]
  have hfst : (List.zip (paramNames d) (vals.take d.Args.length)).map Prod.fst =
      paramNames d := by
    rw [map_fst_zip_take, List.length_take, List.take_of_length_le]
    rw [hnl, hvl]; omega
  refine ⟨?_, ?_, ?_⟩
  · have h1 : (toks.take d.Args.length).map a.ArgSplitter =
        (vals.take d.Args.length).map (fun v => Except.ok [v]) := by
      rw [List.map_take, List.map_take, hsp]
    have h2 : (toks.drop d.Args.length).map a.ArgSplitter =
        (vals.drop d.Args.length).map (fun v => Except.ok [v]) := by
      rw [List.map_drop, List.map_drop, hsp]
    have hlt : (toks.take d.Args.length).length = d.Args.length := by
      rw [List.length_take]; omega
    have hloop : argLoop a.ArgSplitter d.Args 0 toks [] [] =
        ((vals.drop d.Args.length).map extraWarning,
          Except.ok (assignAll [] (List.zip (paramNames d) (vals.take d.Args.length)))) := by
      have e1 := argLoop_positional a.ArgSplitter d.Args (toks.take d.Args.length)
        (vals.take d.Args.length) 0 (toks.drop d.Args.length) [] [] h1 (by omega)
      rw [List.take_append_drop] at e1
      have e2 := argLoop_extra a.ArgSplitter d.Args (toks.drop d.Args.length)
        (vals.drop d.Args.length) (0 + (toks.take d.Args.length).length) []
        (assignAll [] (List.zip ((d.Args.map (fun p => p.1)).drop 0) (vals.take d.Args.length)))
        [] h2 (by omega)
      rw [List.append_nil] at e2
      rw [e1, e2, argLoop_nil]
      rfl
    rw [Exec_found code lower a cmd0 _ d hd, execFound_ok code a _ d _ _ _ hloop]
  · intro k hk
    rcases mapGet_assignAll_ne_none _ [] k hk with h | h
    · exact absurd rfl h
    · rwa [hfst] at h
  · intro hnd j n v hn hv
    have hj : j < d.Args.length := by
      rcases Nat.lt_or_ge j (paramNames d).length with h | h
      · omega
      · rw [List.get?_eq_none.mpr h] at hn; cases hn
    have hv2 : (vals.take d.Args.length).get? j = some v := by
      rw [List.get?_eq_getElem?, List.getElem?_take_of_lt hj, ← List.get?_eq_getElem?]
      exact hv
    exact mapGet_assignAll_of_mem _ [] (by rw [hfst]; exact hnd) (n, v)
      (mem_zip_of_get? _ _ j n v hn hv2)

/-- C8, witness: for the parameters `a`, `b` the line `cmd 1 2 3` invokes the handler with
`a:1 b:2`, warns about `3` and succeeds. -/
theorem Exec_extra_positional_witness :
    (Exec demoCode asciiLower (demoCli false) ["cmd", "1", "2", "3"]).1.calls =
      [("cmd", [("a", "1"), ("b", "2")])] ∧
    (Exec demoCode asciiLower (demoCli false) ["cmd", "1", "2", "3"]).1.stdout =
      ["WARNING: extra argument:  3"] ∧
    (Exec demoCode asciiLower (demoCli false) ["cmd", "1", "2", "3"]).2 = none := by
  have h := (Exec_extra_positional demoCode asciiLower (demoCli false) "cmd" cmdAB ["1", "2", "3"]
    ["1", "2", "3"] rfl rfl (by decide)).1
  rw [h]
  exact ⟨rfl, rfl, rfl⟩

/-- C9: when the lookup key of a non-empty token sequence (the first token, lower-cased
exactly when `CaseInsensitive` is set) is not a key of the registry, `Exec` returns the
unknown-command error naming the first token and leaves the session untouched, so no handler
runs; an empty token sequence returns no error and leaves the session untouched. -/
theorem Exec_unknown_command {T L H : Type} (code : Handlers T L H)
    (lower : Char → Char) (a : ShellCli T L H)
    (cmd0 : String) (args : List String)
    (hnone : a.lookup (if a.CaseInsensitive then ToLower lower cmd0 else cmd0) = none) :
    Exec code lower a (cmd0 :: args) = (a, some ("unknown command: " ++ cmd0)) ∧
    Exec code lower a [] = (a, none) := by
  refine ⟨?_, rfl⟩
  simp only [Exec, lookupKey, hnone]

/-- C9, witness: in case-sensitive mode with only `Foo` registered, `foo 1` fails with the
unknown-command error. -/
theorem Exec_unknown_command_witness :
    Exec demoCode asciiLower (AddCommand (emptyCli false) "Foo" cmdAB) ("foo" :: ["1"]) =
      (AddCommand (emptyCli false) "Foo" cmdAB, some ("unknown command: " ++ "foo")) ∧
    Exec demoCode asciiLower (AddCommand (emptyCli false) "Foo" cmdAB) [] =
      (AddCommand (emptyCli false) "Foo" cmdAB, none) :=
  Exec_unknown_command demoCode asciiLower (AddCommand (emptyCli false) "Foo" cmdAB) "foo" ["1"] rfl


/-! ## Registration -/

theorem AddCommand_eq {T L H : Type} (a : ShellCli T L H) (n : String) (d : Command H) :
    AddCommand a n d = { a with Commands := some (mapSet (a.Commands.getD []) n d) } := by
  cases h : a.Commands with
  | none => simp [AddCommand, h]
  | some m => simp [AddCommand, h]

theorem mapSet_mapSet {β : Type} (m : List (String × β)) (k : String) (v w : β) :
    mapSet (mapSet m k v) k w = mapSet m k w := by
  simp [mapSet, List.filter_append, List.filter_filter]

theorem filter_key_mapSet {β : Type} (m : List (String × β)) (k : String) (v : β) :
    (mapSet m k v).filter (fun e => decide (e.1 = k)) = [(k, v)] := by
  simp [mapSet, List.filter_append, List.filter_filter]

theorem filter_others_mapSet {β : Type} (m : List (String × β)) (k : String) (v : β) :
    (mapSet m k v).filter (fun e => !decide (e.1 = k)) =
      m.filter (fun e => !decide (e.1 = k)) := by
  simp [mapSet, List.filter_append, List.filter_filter]

theorem lookup_AddCommand_self {T L H : Type} (a : ShellCli T L H) (n : String) (d : Command H) :
    (AddCommand a n d).lookup n = some d := by
  rw [AddCommand_eq]
  exact mapGet_mapSet_self _ n d

theorem lookup_AddCommand_ne {T L H : Type} (a : ShellCli T L H) (n n2 : String) (d : Command H)
    (h : n2 ≠ n) : (AddCommand a n d).lookup n2 = a.lookup n2 := by
  rw [AddCommand_eq]
  simp only [ShellCli.lookup]
  rw [mapGet_mapSet_ne _ _ _ _ h]
  cases a.Commands <;> rfl

/-- C10: after `AddCommand(n, d1)` and then `AddCommand(n, d2)`, on any session (a nil
`Commands` map included), the registry holds exactly one entry under `n`, namely `d2`, looking
up `n` gives `d2`, and the entries under every other name are the same as before the calls. -/
theorem AddCommand_last_write_wins {T L H : Type} (a : ShellCli T L H) (n : String)
    (d1 d2 : Command H) :
    (AddCommand (AddCommand a n d1) n d2).lookup n = some d2 ∧
    (∃ m, (AddCommand (AddCommand a n d1) n d2).Commands = some m ∧
      m.filter (fun e => decide (e.1 = n)) = [(n, d2)] ∧
      m.filter (fun e => !decide (e.1 = n)) =
        (a.Commands.getD []).filter (fun e => !decide (e.1 = n))) ∧
    (∀ n2, n2 ≠ n → (AddCommand (AddCommand a n d1) n d2).lookup n2 = a.lookup n2) := by
  refine ⟨lookup_AddCommand_self _ n d2, ?_, ?_⟩
  · refine ⟨mapSet (a.Commands.getD []) n d2, ?_, filter_key_mapSet _ n d2,
      filter_others_mapSet _ n d2⟩
    rw [AddCommand_eq, AddCommand_eq]
    simp only [Option.getD_some, mapSet_mapSet]
  · intro n2 h
    rw [lookup_AddCommand_ne _ n n2 d2 h, lookup_AddCommand_ne _ n n2 d1 h]

/-! ## Case-insensitive lookup and completion -/

/-- C3 (amended): in a session with `CaseInsensitive` set, after `AddCommand(n, d)` every
first token whose lower-cased form equals `n` itself finds `d`; when the argument tokens all
split into one or two pieces, the handler of `d` is invoked and `Exec` returns its outcome. -/
theorem Exec_case_insensitive_lookup {T L H : Type} (code : Handlers T L H)
    (lower : Char → Char) (a : ShellCli T L H)
    (n t : String) (d : Command H) (args : List String)
    (hci : a.CaseInsensitive = true) (ht : ToLower lower t = n)
    (hall : ∀ x ∈ args, ∃ l, a.ArgSplitter x = Except.ok l ∧ (l.length = 1 ∨ l.length = 2)) :
    (AddCommand a n d).lookup (lookupKey lower (AddCommand a n d) t) = some d ∧
    ∃ m, (Exec code lower (AddCommand a n d) (t :: args)).1.calls = a.calls ++ [(n, m)] ∧
      (Exec code lower (AddCommand a n d) (t :: args)).2 =
        (code d.Run (AddCommand a n d).toSession m).2 := by
  have hkey : lookupKey lower (AddCommand a n d) t = n := by
    rw [AddCommand_eq]
    simp only [lookupKey, hci, if_true, ht]
  have hfound : (AddCommand a n d).lookup (lookupKey lower (AddCommand a n d) t) = some d := by
    rw [hkey]
    exact lookup_AddCommand_self a n d
  have hsp : (AddCommand a n d).ArgSplitter = a.ArgSplitter := by rw [AddCommand_eq]
  refine ⟨hfound, ?_⟩
  obtain ⟨m1, out1, hrun⟩ := argLoop_passes a.ArgSplitter d.Args args hall 0 [] []
  have hloop : argLoop (AddCommand a n d).ArgSplitter d.Args 0 args [] [] =
      (out1, Except.ok m1) := by
    have := hrun []
    rw [List.append_nil, argLoop_nil] at this
    rw [hsp]
    exact this
  refine ⟨m1, ?_, ?_⟩
  · rw [Exec_found code lower _ t _ d hfound, execFound_ok code _ _ d _ _ _ hloop, hkey, AddCommand_eq]
  · rw [Exec_found code lower _ t _ d hfound, execFound_ok code _ _ d _ _ _ hloop, AddCommand_eq]

/-- C3, witness: with `CaseInsensitive` set and `cmd` registered, the tokens `CMD 1` find the
command and invoke its handler. -/
theorem Exec_case_insensitive_lookup_witness :
    (AddCommand (emptyCli true) "cmd" cmdAB).lookup
      (lookupKey asciiLower (AddCommand (emptyCli true) "cmd" cmdAB) "CMD") = some cmdAB ∧
    ∃ m, (Exec demoCode asciiLower (AddCommand (emptyCli true) "cmd" cmdAB) ("CMD" :: ["1"])).1.calls =
        (emptyCli true).calls ++ [("cmd", m)] ∧
      (Exec demoCode asciiLower (AddCommand (emptyCli true) "cmd" cmdAB) ("CMD" :: ["1"])).2 =
        (demoCode cmdAB.Run (AddCommand (emptyCli true) "cmd" cmdAB).toSession m).2 :=
  Exec_case_insensitive_lookup demoCode asciiLower (emptyCli true) "cmd" "CMD" cmdAB ["1"] rfl
    (by decide)
    (by
      intro x hx
      simp only [List.mem_singleton] at hx
      subst hx
      exact ⟨["1"], rfl, Or.inl rfl⟩)

/-- C3, counterexample: with `CaseInsensitive` set, after `AddCommand("Foo", d)` the tokens
`foo 1` fail with the unknown-command error and no handler runs, although `foo` and `Foo`
have the same lower-cased form. -/
theorem Exec_case_insensitive_lookup_counterexample :
    (emptyCli true).CaseInsensitive = true ∧
    ToLower asciiLower "foo" = ToLower asciiLower "Foo" ∧
    (Exec demoCode asciiLower (AddCommand (emptyCli true) "Foo" cmdAB) ["foo", "1"]).2 =
      some "unknown command: foo" ∧
    (Exec demoCode asciiLower (AddCommand (emptyCli true) "Foo" cmdAB) ["foo", "1"]).1.calls = [] := by
  decide

/-- C4 (amended): the completion callback returns exactly the registered command names that
have the lower-cased input as a prefix, each name being compared as registered and not
lower-cased; the `CaseInsensitive` flag plays no part. So a name that is its own lower-cased
form is returned exactly when its lower-cased form has the lower-cased input as a prefix. -/
theorem setCompletionHandler_candidates {T L H : Type} (lower : Char → Char) (a : ShellCli T L H)
    (line name : String) (flag : Bool) :
    (name ∈ setCompletionHandler lower a line ↔
      a.lookup name ≠ none ∧ HasPrefix name (ToLower lower line) = true) ∧
    setCompletionHandler lower { a with CaseInsensitive := flag } line =
      setCompletionHandler lower a line ∧
    (ToLower lower name = name →
      (name ∈ setCompletionHandler lower a line ↔
        a.lookup name ≠ none ∧
          HasPrefix (ToLower lower name) (ToLower lower line) = true)) := by
  have h : name ∈ setCompletionHandler lower a line ↔
      a.lookup name ≠ none ∧ HasPrefix name (ToLower lower line) = true := by
    unfold setCompletionHandler ShellCli.lookup
    cases a.Commands with
    | none => simp
    | some m => simp only [List.mem_filter, mem_mapKeys_iff]
  refine ⟨h, rfl, ?_⟩
  intro hn
  rw [hn]
  exact h

/-- C4, witness: with `cmd` registered, the inputs `c` and `C` both yield `cmd`, in either
mode. -/
theorem setCompletionHandler_candidates_witness :
    "cmd" ∈ setCompletionHandler asciiLower (demoCli false) "c" ∧
    "cmd" ∈ setCompletionHandler asciiLower (demoCli false) "C" ∧
    "cmd" ∈ setCompletionHandler asciiLower (demoCli true) "C" :=
  ⟨(setCompletionHandler_candidates asciiLower (demoCli false) "c" "cmd" false).1.mpr
      ⟨fun h => Option.some_ne_none cmdAB h, by decide⟩,
    (setCompletionHandler_candidates asciiLower (demoCli false) "C" "cmd" false).1.mpr
      ⟨fun h => Option.some_ne_none cmdAB h, by decide⟩,
    (setCompletionHandler_candidates asciiLower (demoCli true) "C" "cmd" false).1.mpr
      ⟨fun h => Option.some_ne_none cmdAB h, by decide⟩⟩

/-- C4, counterexample: with `Foo` registered, the inputs `f` and `F` yield no candidate in
either mode, although the lower-cased `Foo` has the lower-cased input as a prefix. -/
theorem setCompletionHandler_candidates_counterexample :
    HasPrefix (ToLower asciiLower "Foo") (ToLower asciiLower "f") = true ∧
    HasPrefix (ToLower asciiLower "Foo") (ToLower asciiLower "F") = true ∧
    (AddCommand (emptyCli false) "Foo" cmdAB).lookup "Foo" = some cmdAB ∧
    setCompletionHandler asciiLower (AddCommand (emptyCli false) "Foo" cmdAB) "f" = [] ∧
    setCompletionHandler asciiLower (AddCommand (emptyCli false) "Foo" cmdAB) "F" = [] ∧
    setCompletionHandler asciiLower (AddCommand (emptyCli true) "Foo" cmdAB) "f" = [] ∧
    setCompletionHandler asciiLower (AddCommand (emptyCli true) "Foo" cmdAB) "F" = [] :=
  ⟨by decide, by decide, rfl, by decide, by decide, by decide, by decide⟩

/-! ## Statement sequencing -/

/-- A statement that is neither empty nor an exit statement and has a first token is handed
to `Exec`; an error it returns is printed and the loop goes on. -/
theorem execStmt_dispatches {T L H : Type} (code : Handlers T L H) (lower : Char → Char)
    (a : ShellCli T L H) (c t0 : String) (ts : List String) (hc : c ≠ "")
    (hs : a.Splitter (TrimSpace c) = Except.ok (t0 :: ts)) (h0 : t0 ≠ "")
    (hx : ¬ (t0 = "exit" ∨ t0 = "quit")) :
    execStmt code lower a c =
      (match (Exec code lower (appendHistory a (TrimSpace c)) (t0 :: ts)).2 with
        | some err =>
          Println (Exec code lower (appendHistory a (TrimSpace c)) (t0 :: ts)).1
            ["Error: ", err]
        | none => (Exec code lower (appendHistory a (TrimSpace c)) (t0 :: ts)).1,
        false) := by
  simp only [execStmt, hc, if_false, RunString, hs, h0, hx]

theorem relog_relog {T L H : Type} (o o2 : List String) (k k2 : List (String × ArgMap))
    (b : ShellCli T L H) :
    relog o k (relog o2 k2 b) = relog (o ++ o2) (k ++ k2) b := by
  simp [relog, List.append_assoc]

end shellcli
